import Mathlib

/-!
Verification development for the Al-Qur'an Self-Recitation repository.

The TypeScript source is shallowly embedded: strings are lists of
characters, JS numbers used as array indices are `Int` (they can be -1),
counters are `Nat`, and JS float arithmetic in the scoring/accuracy code
is modelled as exact real (resp. rational) arithmetic.
-/

namespace AlQuran

/-! ### Tokenizer (src/unnamed/part_003, `cleanArabicText`, `displayStructure` memo) -/

/-- Character class of `marksRegex`:
`[ؐ-ؚۖ-ۜ۞-ۨﻵ-ﻼ]`. -/
def isMark (c : Char) : Bool :=
  (0x610 ≤ c.toNat && c.toNat ≤ 0x61A) ||
  (0x6d6 ≤ c.toNat && c.toNat ≤ 0x6dc) ||
  (0x6de ≤ c.toNat && c.toNat ≤ 0x6e8) ||
  (0xFEF5 ≤ c.toNat && c.toNat ≤ 0xFEFC)

/-- `cleanArabicText`: remove every mark character. -/
def cleanArabicText (s : List Char) : List Char :=
  s.filter (fun c => !(isMark c))

/-- JavaScript `String.prototype.trim` whitespace (the code points relevant
to this code base). -/
def isJsWhitespace (c : Char) : Bool :=
  c = ' ' || c = '\t' || c = '\n' || c = '\r' ||
  c.toNat = 0x0B || c.toNat = 0x0C || c.toNat = 0xA0 || c.toNat = 0xFEFF

/-- JavaScript `trim()`: drop leading and trailing whitespace. -/
def jsTrim (s : List Char) : List Char :=
  ((s.dropWhile isJsWhitespace).reverse.dropWhile isJsWhitespace).reverse

/-- `text.replace(marksRegex, ' $1 ')`: surround every mark character
with spaces. -/
def addMarkSpaces (s : List Char) : List Char :=
  s.flatMap (fun c => if isMark c then [' ', c, ' '] else [c])

/-- JavaScript `split(' ')` (empty fragments are kept, as in JS). -/
def splitOnSpace : List Char → List (List Char)
  | [] => [[]]
  | c :: rest =>
    if c = ' ' then
      [] :: splitOnSpace rest
    else
      match splitOnSpace rest with
      | t :: ts => (c :: t) :: ts
      | [] => [[c]]

/-- `textWithSpaces.split(' ').filter(Boolean)`. -/
def originalWords (text : List Char) : List (List Char) :=
  (splitOnSpace (addMarkSpaces text)).filter (fun w => !w.isEmpty)

/-- Fragment classification used by the tokenizer loop:
`cleanArabicText(word).trim().length === 0` means a pause-mark (waqf)
fragment. -/
def isWaqfToken (w : List Char) : Bool :=
  (jsTrim (cleanArabicText w)).isEmpty

/-- One entry of `displayStructure`: `{ type: 'word' | 'waqf'; text; logicIndex }`.
`isWordItem = true` stands for `type: 'word'`. -/
structure DisplayItem where
  isWordItem : Bool
  text : List Char
  logicIndex : Int
deriving DecidableEq

/-- The tokenizer loop of the `displayStructure` memo, with the running
`currentLogicIndex` accumulator (started at -1). -/
def tokenizeAux : List (List Char) → Int → List DisplayItem
  | [], _ => []
  | w :: rest, cur =>
    if isWaqfToken w then
      ⟨false, w, cur⟩ :: tokenizeAux rest cur
    else
      ⟨true, w, cur + 1⟩ :: tokenizeAux rest (cur + 1)

/-- `displayStructure` for a verse text (empty text gives `[]`, matching
the falsy-text early return). -/
def displayStructure (text : List Char) : List DisplayItem :=
  tokenizeAux (originalWords text) (-1)

/-- `logicWords` produced by the same memo: the cleaned word fragments. -/
def logicWords (text : List Char) : List (List Char) :=
  ((originalWords text).filter (fun w => !isWaqfToken w)).map cleanArabicText

/-- `getWordsForAyah`-style word list for a raw text: original (uncleaned)
fragments that are not waqf fragments. -/
def wordTokens (text : List Char) : List (List Char) :=
  (originalWords text).filter (fun w => !isWaqfToken w)

/-- The rendering visibility test: `item.logicIndex <= currentWordIndex`. -/
def isVisible (item : DisplayItem) (currentWordIndex : Int) : Bool :=
  item.logicIndex ≤ currentWordIndex

/-! ### Data model (src/types.ts) -/

/-- The fields of an `Ayah` record that the session engine reads:
`number` (0 = preamble) and the raw `text`. -/
structure Ayah where
  number : Int
  text : List Char
deriving DecidableEq

/-- `Mistake` kind: `'forgot' | 'tajwid'`. -/
inductive MistakeType where
  | forgot
  | tajwid
deriving DecidableEq

/-- A `Mistake` record. -/
structure Mistake where
  ayahIndex : Int
  wordIndex : Int
  type : MistakeType
deriving DecidableEq

/-- `MemorizationStats`, the immutable snapshot emitted at session end.
`accuracy` is a rational (JS float modelled exactly). -/
structure MemorizationStats where
  totalWords : Nat
  forgotCount : Nat
  tajwidCount : Nat
  accuracy : ℚ
  mistakes : List Mistake
deriving DecidableEq

/-! ### Session state machine (src/unnamed/part_003, MemorizationView) -/

/-- The mutable session state owned by `MemorizationView`. -/
structure EngineState where
  currentAyahIndex : Int
  currentWordIndex : Int
  mistakes : List Mistake
  totalWordsInSession : Nat
  furthestAyahIndex : Int
  furthestWordIndex : Int
  sessionStartIndex : Int
  ended : Bool
deriving DecidableEq

/-- JS array indexing `ayahs[i]`: `undefined` outside the range. -/
def ayahGet (ayahs : List Ayah) (i : Int) : Option Ayah :=
  if h : 0 ≤ i ∧ i.toNat < ayahs.length then some (ayahs.get ⟨i.toNat, h.2⟩)
  else none

/-- `getWordsForAyah`: word fragments of a possibly-missing ayah
(`!ayah?.text` yields `[]`). -/
def getWordsForAyah (oa : Option Ayah) : List (List Char) :=
  match oa with
  | none => []
  | some a => wordTokens a.text

/-- Number of logical words of the ayah at index `i`
(`currentAyahWords.length` for the current ayah). -/
def wordCountAt (ayahs : List Ayah) (i : Int) : Nat :=
  match ayahGet ayahs i with
  | none => 0
  | some a => (logicWords a.text).length

/-- `ayahs[i].number === 0` (false when the index is out of range). -/
def isPreambleAt (ayahs : List Ayah) (i : Int) : Bool :=
  match ayahGet ayahs i with
  | none => false
  | some a => a.number = 0

/-- `mistakeMarkedForWord`: some recorded mistake sits at the current
position. -/
def mistakeMarkedForWord (s : EngineState) : Bool :=
  s.mistakes.any fun m =>
    m.ayahIndex = s.currentAyahIndex && m.wordIndex = s.currentWordIndex

/-- JS `Array.prototype.findIndex`: index of the first match, `-1` if none. -/
def jsFindIndex (p : Ayah → Bool) (ayahs : List Ayah) : Int :=
  match ayahs.findIdx? p with
  | some i => (i : Int)
  | none => -1

/-- `handleStartMemorization`, the fresh-start branch
(`sessionStarted === false`): resolve the entry verse and seed the
session counters. -/
def handleStartMemorization (ayahs : List Ayah) (isJuzMode : Bool)
    (startAyah : Int) : EngineState :=
  let firstRealVerseIndex := jsFindIndex (fun a => 0 < a.number) ayahs
  let verseToStartIndex0 : Int :=
    if firstRealVerseIndex ≠ -1 then firstRealVerseIndex else 0
  let verseToStartIndex : Int :=
    if !isJuzMode then
      let requestedStartIndex := jsFindIndex (fun a => a.number = startAyah) ayahs
      if requestedStartIndex ≠ -1 then requestedStartIndex else verseToStartIndex0
    else verseToStartIndex0
  { currentAyahIndex := verseToStartIndex
    currentWordIndex := 0
    mistakes := []
    totalWordsInSession := 1
    furthestAyahIndex := verseToStartIndex
    furthestWordIndex := 0
    sessionStartIndex := verseToStartIndex
    ended := false }

/-- `handleNextWord`. -/
def handleNextWord (ayahs : List Ayah) (s : EngineState) : EngineState :=
  let isAtFurthestProgress :=
    s.currentAyahIndex = s.furthestAyahIndex ∧
    s.currentWordIndex = s.furthestWordIndex
  let wc : Int := (wordCountAt ayahs s.currentAyahIndex : Int)
  if ¬ (wc - 1 ≤ s.currentWordIndex) then
    -- not the last word in the ayah
    let nextWordIndex := s.currentWordIndex + 1
    { s with
      currentWordIndex := nextWordIndex
      furthestWordIndex :=
        if isAtFurthestProgress then nextWordIndex else s.furthestWordIndex
      totalWordsInSession :=
        if isAtFurthestProgress then s.totalWordsInSession + 1
        else s.totalWordsInSession }
  else
    let nextAyahIndex := s.currentAyahIndex + 1
    if nextAyahIndex < (ayahs.length : Int) then
      { s with
        currentAyahIndex := nextAyahIndex
        currentWordIndex := 0
        furthestAyahIndex :=
          if isAtFurthestProgress then nextAyahIndex else s.furthestAyahIndex
        furthestWordIndex :=
          if isAtFurthestProgress then 0 else s.furthestWordIndex
        totalWordsInSession :=
          if isAtFurthestProgress ∧ ¬ isPreambleAt ayahs nextAyahIndex then
            s.totalWordsInSession + 1
          else s.totalWordsInSession }
    else
      { s with ended := true }

/-- `handlePreviousWord`. -/
def handlePreviousWord (ayahs : List Ayah) (s : EngineState) : EngineState :=
  if s.currentAyahIndex = s.sessionStartIndex ∧ s.currentWordIndex = 0 then s
  else if 0 < s.currentWordIndex then
    { s with currentWordIndex := s.currentWordIndex - 1 }
  else
    let prevAyahIndex := s.currentAyahIndex - 1
    if 0 ≤ prevAyahIndex then
      { s with
        currentAyahIndex := prevAyahIndex
        currentWordIndex :=
          ((getWordsForAyah (ayahGet ayahs prevAyahIndex)).length : Int) - 1 }
    else s

/-- `addMistake`. -/
def addMistake (type : MistakeType) (s : EngineState) : EngineState :=
  if mistakeMarkedForWord s then s
  else
    { s with
      mistakes :=
        s.mistakes ++ [{ ayahIndex := s.currentAyahIndex
                         wordIndex := s.currentWordIndex
                         type := type }] }

/-- `forgotCount` memo. -/
def forgotCount (s : EngineState) : Nat :=
  (s.mistakes.filter (fun m => m.type = MistakeType.forgot)).length

/-- `tajwidCount` memo. -/
def tajwidCount (s : EngineState) : Nat :=
  (s.mistakes.filter (fun m => m.type = MistakeType.tajwid)).length

/-- `parseFloat(x.toFixed(2))`: round to two decimal places. -/
def jsToFixed2 (x : ℚ) : ℚ :=
  (round (x * 100) : ℤ) / 100

/-- `endMemorizationSession`: emits a `MemorizationStats` snapshot unless
`totalWordsInSession` is zero. -/
def endMemorizationSession (s : EngineState) : Option MemorizationStats :=
  let totalWords := s.totalWordsInSession
  if totalWords = 0 then none
  else
    let totalMistakes : ℚ := (forgotCount s : ℚ) + (tajwidCount s : ℚ) * (1/2)
    let accuracy : ℚ :=
      max 0 (((totalWords : ℚ) - totalMistakes) / (totalWords : ℚ) * 100)
    some
      { totalWords := totalWords
        forgotCount := forgotCount s
        tajwidCount := tajwidCount s
        accuracy := jsToFixed2 accuracy
        mistakes := s.mistakes }

/-- A user event processed by the session state machine. -/
inductive Op where
  | next
  | prev
  | mark (type : MistakeType)
deriving DecidableEq

/-- One event step. -/
def step (ayahs : List Ayah) (op : Op) (s : EngineState) : EngineState :=
  match op with
  | Op.next => handleNextWord ayahs s
  | Op.prev => handlePreviousWord ayahs s
  | Op.mark t => addMistake t s

/-- Run a sequence of events. -/
def run (ayahs : List Ayah) (s : EngineState) : List Op → EngineState
  | [] => s
  | op :: ops => run ayahs (step ayahs op s) ops

/-- The states visited while running a sequence of events (including the
initial one). -/
def trace (ayahs : List Ayah) (s : EngineState) : List Op → List EngineState
  | [] => [s]
  | op :: ops => s :: trace ayahs (step ayahs op s) ops

/-- The furthest-progress position of a state. -/
def furPos (s : EngineState) : Int × Int :=
  (s.furthestAyahIndex, s.furthestWordIndex)

/-! ### Scoring engine (src/components/MemorizationSummaryModal.tsx and
src/components/AnalysisView.tsx, `calculateScore` / `getRank`; the two
copies are identical) -/

/-- The weighted mistake count
`(L * forgotWeight) + (S * tajwidWeight)` with weights `1.0` / `0.6`. -/
noncomputable def weightedMistakes (forgot tajwid : Nat) : ℝ :=
  (forgot : ℝ) * 1 + (tajwid : ℝ) * (6/10)

/-- `calculateScore` (float arithmetic modelled over the reals). -/
noncomputable def calculateScore (totalWords forgot tajwid : Nat) : Int :=
  if totalWords = 0 then 0
  else if weightedMistakes forgot tajwid = 0 then (totalWords : Int)
  else
    let mistakeRatio : ℝ := weightedMistakes forgot tajwid / (totalWords : ℝ)
    let brutalityFactor : ℝ := 50
    let scoreMultiplier : ℝ := Real.exp (-brutalityFactor * mistakeRatio)
    round ((totalWords : ℝ) * scoreMultiplier)

/-- Scoring function as the specification words it (claim C2): 0 when
`N == 0`, exactly `N` when `W == 0`, otherwise
`round(N * exp(-50 * (W / N)))` with `W = forgot * 1.0 + tajwid * 0.6`. -/
noncomputable def specScore (n forgot tajwid : Nat) : Int :=
  if n = 0 then 0
  else
    let w : ℝ := (forgot : ℝ) * 1 + (tajwid : ℝ) * (6/10)
    if w = 0 then (n : Int)
    else round ((n : ℝ) * Real.exp (-50 * (w / (n : ℝ))))

/-- `getRank` (identical in both components). -/
def getRank (accuracy : ℚ) : String :=
  if accuracy = 100 then "X"
  else if 99.5 ≤ accuracy then "SSS"
  else if 99 ≤ accuracy then "SS"
  else if 98 ≤ accuracy then "S"
  else if 95 ≤ accuracy then "A"
  else if 90 ≤ accuracy then "B"
  else if 82.5 ≤ accuracy then "C"
  else if 75 ≤ accuracy then "D"
  else "F"

/-! ### Summary layout: greedy line breaking
(`linesOfItems` loop in src/components/AnalysisView.tsx
`handleSaveAndDownload` and src/components/MemorizationSummaryModal.tsx;
generic in the item type so it covers both variants). -/

/-- The greedy line-breaking loop, with the accumulated
`linesOfItems` / `currentLine` / `currentLineWidth` variables. -/
def linesOfItemsAux {α : Type} (width : α → ℚ) (spaceWidth contentWidth : ℚ) :
    List α → List (List α) → List α → ℚ → List (List α)
  | [], lines, currentLine, _ =>
    if currentLine.isEmpty then lines else lines ++ [currentLine]
  | item :: rest, lines, currentLine, currentLineWidth =>
    let wordWidth := width item
    if contentWidth <
        currentLineWidth + wordWidth +
          (if 0 < currentLine.length then spaceWidth else 0) then
      linesOfItemsAux width spaceWidth contentWidth rest
        (lines ++ [currentLine]) [item] wordWidth
    else
      let currentLine' := currentLine ++ [item]
      linesOfItemsAux width spaceWidth contentWidth rest
        lines currentLine'
        (currentLineWidth + wordWidth +
          (if 1 < currentLine'.length then spaceWidth else 0))

/-- `linesOfItems`: break a list of measured items into lines. -/
def linesOfItems {α : Type} (width : α → ℚ) (spaceWidth contentWidth : ℚ)
    (items : List α) : List (List α) :=
  linesOfItemsAux width spaceWidth contentWidth items [] [] 0

/-- Width of a rendered line: the member widths plus one inter-word space
between consecutive words. -/
def lineWidth {α : Type} (width : α → ℚ) (spaceWidth : ℚ)
    (line : List α) : ℚ :=
  (line.map width).sum + spaceWidth * ((line.length - 1 : Nat) : ℚ)

/-! ### Analysis-view tokenizers (src/components/AnalysisView.tsx
`displayableItems`, and the older variant src/unnamed/part_002) -/

/-- An item of the Analysis view's `displayStructure`: waqf items carry no
logic index (`logicIndex?`). -/
structure AnalysisItem where
  isWordItem : Bool
  text : List Char
  logicIndex : Option Int
deriving DecidableEq

/-- The `displayableItems` loop of the current Analysis view, with the
running `logicWordCounter` (started at 0). -/
def analysisTokenizeAux : List (List Char) → Int → List AnalysisItem
  | [], _ => []
  | w :: rest, counter =>
    if isWaqfToken w then
      ⟨false, w, none⟩ :: analysisTokenizeAux rest counter
    else
      ⟨true, w, some counter⟩ :: analysisTokenizeAux rest (counter + 1)

/-- `displayableItems` tokenization of src/components/AnalysisView.tsx:
same mark spacing, split and classification as the session engine. -/
def analysisDisplayStructure (text : List Char) : List AnalysisItem :=
  analysisTokenizeAux (originalWords text) 0

/-- The legacy `cleanArabicText` of src/unnamed/part_002:
`[ۖ-ۜ۞]` only. -/
def legacyCleanArabicText (s : List Char) : List Char :=
  s.filter fun c =>
    !((0x6d6 ≤ c.toNat && c.toNat ≤ 0x6dc) || c.toNat = 0x6de)

/-- Legacy fragment classification (part_002): a waqf fragment is one whose
legacy-cleaned text trims to nothing. -/
def legacyIsWaqfToken (w : List Char) : Bool :=
  (jsTrim (legacyCleanArabicText w)).isEmpty

/-- The legacy `displayableItems` loop (part_002): `ayah.text.split(' ')`
with no mark spacing, then `filter(Boolean)` and classification. -/
def legacyTokenizeAux : List (List Char) → Int → List AnalysisItem
  | [], _ => []
  | w :: rest, counter =>
    if legacyIsWaqfToken w then
      ⟨false, w, none⟩ :: legacyTokenizeAux rest counter
    else
      ⟨true, w, some counter⟩ :: legacyTokenizeAux rest (counter + 1)

/-- Legacy `displayableItems` tokenization of src/unnamed/part_002. -/
def legacyDisplayStructure (text : List Char) : List AnalysisItem :=
  legacyTokenizeAux ((splitOnSpace text).filter (fun w => !w.isEmpty)) 0

/-- Word fragments of the session engine's tokenizer paired with their
logic indices: the attribution target of a recorded mistake. -/
def engineWordPairs (text : List Char) : List (List Char × Int) :=
  ((displayStructure text).filter (fun it => it.isWordItem)).map
    fun it => (it.text, it.logicIndex)

/-- Word fragments of an Analysis-view tokenization paired with their
logic indices. -/
def analysisWordPairs (items : List AnalysisItem) : List (List Char × Int) :=
  (items.filter (fun it => it.isWordItem)).map
    fun it => (it.text, it.logicIndex.getD (-1))

/-! ### Helper lemmas -/

theorem round_rat_mono {x y : ℚ} (h : x ≤ y) : round x ≤ round y := by
  rw [round_eq, round_eq]
  exact Int.floor_le_floor (by linarith)

theorem jsToFixed2_nonneg {x : ℚ} (h0 : 0 ≤ x) : 0 ≤ jsToFixed2 x := by
  unfold jsToFixed2
  have h1 : (0 : ℤ) ≤ round (x * 100) := by
    have := round_rat_mono (show (0 : ℚ) ≤ x * 100 by nlinarith)
    simpa using this
  have : (0 : ℚ) ≤ (round (x * 100) : ℤ) := by exact_mod_cast h1
  positivity

theorem jsToFixed2_le_100 {x : ℚ} (h100 : x ≤ 100) : jsToFixed2 x ≤ 100 := by
  unfold jsToFixed2
  have h2 : round (x * 100) ≤ (10000 : ℤ) := by
    have := round_rat_mono (show x * 100 ≤ ((10000 : ℤ) : ℚ) by push_cast; nlinarith)
    simpa using this
  rw [div_le_iff₀ (by norm_num)]
  exact_mod_cast le_trans h2 (by norm_num)

/-! ### Claim theorems -/

/-- Claim C2: the scoring function returns 0 when `totalWords == 0`,
returns exactly `N` for a perfect run (`W == 0`, in particular
`forgot = tajwid = 0`), and otherwise `round(N * exp(-50 * (W / N)))`,
exactly as the specification words it (`specScore`). JS float arithmetic
is modelled as exact real arithmetic. -/
theorem calculateScore_spec (N f t : Nat) :
    calculateScore 0 f t = 0 ∧
    (0 < N → calculateScore N 0 0 = (N : Int)) ∧
    calculateScore N f t = specScore N f t := by
  refine ⟨?_, ?_, ?_⟩
  · simp [calculateScore]
  · intro hN
    have hw : weightedMistakes 0 0 = 0 := by simp [weightedMistakes]
    simp [calculateScore, hw, Nat.pos_iff_ne_zero.mp hN]
  · simp only [calculateScore, specScore, weightedMistakes]

/-- Concrete instance of C2: a 3-word perfect run scores exactly 3. -/
theorem calculateScore_spec_witness : 0 < 3 ∧ calculateScore 3 0 0 = 3 :=
  ⟨by norm_num, (calculateScore_spec 3 0 0).2.1 (by norm_num)⟩

/-- Claim C4: `getRank` is a top-down step function of accuracy with
inclusive lower bounds, and the four boundary examples hold. -/
theorem getRank_bands (a : ℚ) :
    (a = 100 → getRank a = "X") ∧
    (a ≠ 100 → 99.5 ≤ a → getRank a = "SSS") ∧
    (a < 99.5 → 99 ≤ a → getRank a = "SS") ∧
    (a < 99 → 98 ≤ a → getRank a = "S") ∧
    (a < 98 → 95 ≤ a → getRank a = "A") ∧
    (a < 95 → 90 ≤ a → getRank a = "B") ∧
    (a < 90 → 82.5 ≤ a → getRank a = "C") ∧
    (a < 82.5 → 75 ≤ a → getRank a = "D") ∧
    (a < 75 → getRank a = "F") ∧
    getRank 100 = "X" ∧ getRank 99.5 = "SSS" ∧
    getRank 82.5 = "C" ∧ getRank 74.99 = "F" := by
  refine ⟨?_, ?_, ?_, ?_, ?_, ?_, ?_, ?_, ?_, by norm_num [getRank],
    by norm_num [getRank], by norm_num [getRank], by norm_num [getRank]⟩
  all_goals intros
  all_goals unfold getRank
  all_goals split_ifs <;>
    first
      | rfl
      | linarith
      | exact absurd (by assumption) (by assumption)

/-- Concrete instance of C4 at the top band. -/
theorem getRank_bands_witness : (100 : ℚ) = 100 ∧ getRank 100 = "X" :=
  ⟨rfl, (getRank_bands 100).1 rfl⟩

/-- Claim C3: whenever `endMemorizationSession` emits stats, the session had
`totalWords > 0`, the emitted accuracy is
`max(0, ((N - (forgotCount + tajwidCount * 0.5)) / N) * 100)` rounded to two
decimal places, and it always lies between 0 and 100. -/
theorem endSession_accuracy (s : EngineState) (st : MemorizationStats)
    (h : endMemorizationSession s = some st) :
    0 < st.totalWords ∧
    st.accuracy = jsToFixed2 (max 0
      (((st.totalWords : ℚ) -
          ((st.forgotCount : ℚ) + (st.tajwidCount : ℚ) * 0.5)) /
        (st.totalWords : ℚ) * 100)) ∧
    0 ≤ st.accuracy ∧ st.accuracy ≤ 100 := by
  unfold endMemorizationSession at h
  by_cases h0 : s.totalWordsInSession = 0
  · simp [h0] at h
  · simp only [h0, if_false] at h
    obtain rfl :
        st = { totalWords := s.totalWordsInSession
               forgotCount := forgotCount s
               tajwidCount := tajwidCount s
               accuracy := jsToFixed2 (max 0
                 (((s.totalWordsInSession : ℚ) -
                     ((forgotCount s : ℚ) + (tajwidCount s : ℚ) * (1/2))) /
                   (s.totalWordsInSession : ℚ) * 100))
               mistakes := s.mistakes } := by
      exact (Option.some_injective _ h).symm
    have hN : (0 : ℚ) < (s.totalWordsInSession : ℚ) := by
      exact_mod_cast Nat.pos_of_ne_zero h0
    set y : ℚ :=
      ((s.totalWordsInSession : ℚ) -
          ((forgotCount s : ℚ) + (tajwidCount s : ℚ) * (1/2))) /
        (s.totalWordsInSession : ℚ) * 100 with hy
    have hyle : y ≤ 100 := by
      rw [hy]
      have hM : (0 : ℚ) ≤ (forgotCount s : ℚ) + (tajwidCount s : ℚ) * (1/2) := by
        positivity
      rw [div_mul_eq_mul_div, div_le_iff₀ hN]
      nlinarith
    have hmax0 : (0 : ℚ) ≤ max 0 y := le_max_left 0 y
    have hmax100 : max 0 y ≤ 100 := max_le (by norm_num) hyle
    refine ⟨Nat.pos_of_ne_zero h0, ?_, ?_, ?_⟩
    · norm_num
    · exact jsToFixed2_nonneg hmax0
    · exact jsToFixed2_le_100 hmax100

/-- Concrete engine state for the C3 witness: three counted words, one
`forgot` mistake. -/
def stateC3 : EngineState :=
  { currentAyahIndex := 0
    currentWordIndex := 2
    mistakes := [{ ayahIndex := 0, wordIndex := 1, type := MistakeType.forgot }]
    totalWordsInSession := 3
    furthestAyahIndex := 0
    furthestWordIndex := 2
    sessionStartIndex := 0
    ended := false }

/-- The stats `stateC3` emits. -/
def statsC3 : MemorizationStats :=
  { totalWords := 3
    forgotCount := 1
    tajwidCount := 0
    accuracy := 6667/100
    mistakes := [{ ayahIndex := 0, wordIndex := 1, type := MistakeType.forgot }] }

/-- Evaluation of `endMemorizationSession` at `stateC3`: the 3-word session
with one forgot mistake emits accuracy 66.67. -/
theorem endSessionC3_eval : endMemorizationSession stateC3 = some statsC3 := by
  have key : jsToFixed2 (max 0 (((3:ℚ) - ((1:ℚ) + (0:ℚ) * (1/2))) / 3 * 100)) =
      6667/100 := by
    have h1 : ((3:ℚ) - ((1:ℚ) + (0:ℚ) * (1/2))) / 3 * 100 = 200/3 := by norm_num
    rw [h1, max_eq_right (by norm_num : (0:ℚ) ≤ 200/3), jsToFixed2, round_eq]
    have h2 : (200/3 : ℚ) * 100 + 1/2 = 40003/6 := by norm_num
    rw [h2]
    have h3 : (⌊(40003/6 : ℚ)⌋ : ℤ) = 6667 := by
      apply Int.floor_eq_iff.mpr
      constructor <;> norm_num
    rw [h3]
    norm_num
  have h1 : forgotCount stateC3 = 1 := rfl
  have h2 : tajwidCount stateC3 = 0 := rfl
  simp only [endMemorizationSession, h1, h2]
  norm_num [stateC3, statsC3]
  convert key using 2
  norm_num

/-- Concrete instance of C3: the 3-word session with one forgot mistake
emits accuracy 66.67, inside the 0 to 100 range. -/
theorem endSession_accuracy_witness :
    endMemorizationSession stateC3 = some statsC3 ∧
    (0 < statsC3.totalWords ∧
      statsC3.accuracy = jsToFixed2 (max 0
        (((statsC3.totalWords : ℚ) -
            ((statsC3.forgotCount : ℚ) + (statsC3.tajwidCount : ℚ) * 0.5)) /
          (statsC3.totalWords : ℚ) * 100)) ∧
      0 ≤ statsC3.accuracy ∧ statsC3.accuracy ≤ 100) :=
  ⟨endSessionC3_eval, endSession_accuracy stateC3 statsC3 endSessionC3_eval⟩

/-- Soundness of every line the greedy breaker can emit. -/
def GoodLine {α : Type} (width : α → ℚ) (spaceWidth contentWidth : ℚ)
    (line : List α) : Prop :=
  lineWidth width spaceWidth line ≤ contentWidth ∨
  ∃ it, line = [it] ∧ contentWidth < width it

theorem lineWidth_nil {α : Type} (width : α → ℚ) (sw : ℚ) :
    lineWidth width sw ([] : List α) = 0 := by
  simp [lineWidth]

theorem lineWidth_singleton {α : Type} (width : α → ℚ) (sw : ℚ) (it : α) :
    lineWidth width sw [it] = width it := by
  simp [lineWidth]

theorem lineWidth_append {α : Type} (width : α → ℚ) (sw : ℚ) (line : List α)
    (hne : line ≠ []) (it : α) :
    lineWidth width sw (line ++ [it]) =
      lineWidth width sw line + width it + sw := by
  unfold lineWidth
  have hlen : 1 ≤ line.length := by
    cases line with
    | nil => exact absurd rfl hne
    | cons a l => simp
  simp only [List.map_append, List.map_cons, List.map_nil, List.sum_append,
    List.sum_cons, List.sum_nil, List.length_append, List.length_cons,
    List.length_nil]
  have h1 : (line.length + 1 - 1 : ℕ) = line.length := by omega
  have h2 : (line.length - 1 : ℕ) + 1 = line.length := by omega
  rw [h1]
  have : ((line.length : ℚ)) = ((line.length - 1 : ℕ) : ℚ) + 1 := by
    exact_mod_cast h2.symm
  rw [this]
  ring

theorem linesOfItemsAux_sound {α : Type} (width : α → ℚ) (sw cw : ℚ)
    (hcw : 0 ≤ cw) :
    ∀ (rest : List α) (lines : List (List α)) (cur : List α) (curW : ℚ),
      (∀ line ∈ lines, GoodLine width sw cw line) →
      ((cur = [] ∧ curW = 0) ∨
        (curW = lineWidth width sw cur ∧ GoodLine width sw cw cur)) →
      (∀ line ∈ linesOfItemsAux width sw cw rest lines cur curW,
          GoodLine width sw cw line) ∧
      (linesOfItemsAux width sw cw rest lines cur curW).flatten =
        lines.flatten ++ cur ++ rest := by
  intro rest
  induction rest with
  | nil =>
    intro lines cur curW hlines hcur
    simp only [linesOfItemsAux]
    by_cases hc : cur.isEmpty
    · have hc' : cur = [] := by simpa [List.isEmpty_iff] using hc
      subst hc'
      rw [if_pos (show ([] : List α).isEmpty = true from rfl)]
      exact ⟨hlines, by simp⟩
    · rw [if_neg (by simpa using hc)]
      have hcur' : GoodLine width sw cw cur := by
        rcases hcur with ⟨h1, _⟩ | ⟨_, h2⟩
        · exact absurd (by simp [h1]) hc
        · exact h2
      constructor
      · intro line hl
        rcases List.mem_append.mp hl with h | h
        · exact hlines line h
        · rcases List.mem_singleton.mp h with rfl
          exact hcur'
      · simp
  | cons item rest ih =>
    intro lines cur curW hlines hcur
    simp only [linesOfItemsAux]
    by_cases hov :
        cw < curW + width item + (if 0 < cur.length then sw else 0)
    · rw [if_pos hov]
      have hcur' : GoodLine width sw cw cur := by
        rcases hcur with ⟨h1, _⟩ | ⟨_, h2⟩
        · subst h1
          left
          rw [lineWidth_nil]
          exact hcw
        · exact h2
      have hlines' : ∀ line ∈ lines ++ [cur], GoodLine width sw cw line := by
        intro line hl
        rcases List.mem_append.mp hl with h | h
        · exact hlines line h
        · rcases List.mem_singleton.mp h with rfl
          exact hcur'
      have hseed :
          ((([item] : List α) = [] ∧ width item = 0) ∨
            (width item = lineWidth width sw [item] ∧
              GoodLine width sw cw [item])) := by
        right
        refine ⟨(lineWidth_singleton width sw item).symm, ?_⟩
        rcases le_or_lt (width item) cw with h | h
        · left
          rw [lineWidth_singleton]
          exact h
        · right
          exact ⟨item, rfl, h⟩
      obtain ⟨hg, hf⟩ := ih (lines ++ [cur]) [item] (width item) hlines' hseed
      refine ⟨hg, ?_⟩
      rw [hf]
      simp
    · rw [if_neg hov]
      have hle : curW + width item + (if 0 < cur.length then sw else 0) ≤ cw :=
        le_of_not_lt hov
      have hw' :
          curW + width item +
              (if 1 < (cur ++ [item]).length then sw else 0) =
            lineWidth width sw (cur ++ [item]) := by
        rcases hcur with ⟨h1, h2⟩ | ⟨h1, _⟩
        · subst h1 h2
          simp [lineWidth_singleton]
        · by_cases hne : cur = []
          · subst hne
            simp only [List.nil_append, List.length_cons, List.length_nil]
            rw [lineWidth_singleton]
            simp [h1, lineWidth_nil]
          · rw [lineWidth_append width sw cur hne item, ← h1]
            have hlen : 0 < cur.length := List.length_pos.mpr hne
            have hlen2 : 1 < (cur ++ [item]).length := by
              simp only [List.length_append, List.length_cons, List.length_nil]
              omega
            rw [if_pos hlen2]
      have hsame :
          (if 1 < (cur ++ [item]).length then sw else 0) =
            (if 0 < cur.length then sw else 0) := by
        have : (cur ++ [item]).length = cur.length + 1 := by simp
        rw [this]
        by_cases h : 0 < cur.length
        · rw [if_pos (by omega), if_pos h]
        · rw [if_neg (by omega), if_neg h]
      have hinv :
          ((cur ++ [item] = [] ∧
              curW + width item +
                (if 1 < (cur ++ [item]).length then sw else 0) = 0) ∨
            (curW + width item +
                (if 1 < (cur ++ [item]).length then sw else 0) =
              lineWidth width sw (cur ++ [item]) ∧
              GoodLine width sw cw (cur ++ [item]))) := by
        right
        refine ⟨hw', ?_⟩
        left
        rw [← hw', hsame]
        exact hle
      obtain ⟨hg, hf⟩ := ih lines (cur ++ [item])
        (curW + width item + (if 1 < (cur ++ [item]).length then sw else 0))
        hlines hinv
      refine ⟨hg, ?_⟩
      rw [hf]
      simp

/-- Claim C9: every line produced by the greedy line breaker fits in the
content width (member widths plus one inter-word space between consecutive
words), except a line holding a single word that is itself wider than the
content width; and the produced lines preserve word order. -/
theorem linesOfItems_spec {α : Type} (width : α → ℚ) (sw cw : ℚ)
    (hcw : 0 ≤ cw) (items : List α) :
    (∀ line ∈ linesOfItems width sw cw items,
        lineWidth width sw line ≤ cw ∨
        ∃ it, line = [it] ∧ cw < width it) ∧
    (linesOfItems width sw cw items).flatten = items := by
  obtain ⟨hg, hf⟩ := linesOfItemsAux_sound width sw cw hcw items [] [] 0
    (by intro line hl; simp at hl) (Or.inl ⟨rfl, rfl⟩)
  exact ⟨hg, by simpa using hf⟩

/-- Concrete instance of C9 with widths 1, 2, 3 at content width 3. -/
theorem linesOfItems_spec_witness :
    (0 : ℚ) ≤ 3 ∧
    ((∀ line ∈ linesOfItems (id : ℚ → ℚ) 1 3 [1, 2, 3],
        lineWidth (id : ℚ → ℚ) 1 line ≤ 3 ∨
        ∃ it, line = [it] ∧ 3 < id it) ∧
      (linesOfItems (id : ℚ → ℚ) 1 3 [1, 2, 3]).flatten = [1, 2, 3]) :=
  ⟨by norm_num, linesOfItems_spec (id : ℚ → ℚ) 1 3 (by norm_num) [1, 2, 3]⟩

/-! ### Tokenizer lemmas -/

theorem splitOnSpace_cons (c : Char) (rest : List Char) :
    splitOnSpace (c :: rest) =
      if c = ' ' then [] :: splitOnSpace rest
      else
        match splitOnSpace rest with
        | t :: ts => (c :: t) :: ts
        | [] => [[c]] := rfl

theorem splitOnSpace_ne_nil (s : List Char) : splitOnSpace s ≠ [] := by
  induction s with
  | nil => simp [splitOnSpace]
  | cons c rest ih =>
    unfold splitOnSpace
    by_cases h : c = ' '
    · simp [h]
    · rw [if_neg h]
      cases hs : splitOnSpace rest with
      | nil => simp
      | cons t ts => simp

theorem splitOnSpace_append_space (x y : List Char) :
    splitOnSpace (x ++ ' ' :: y) = splitOnSpace x ++ splitOnSpace y := by
  induction x with
  | nil => simp [splitOnSpace]
  | cons c x ih =>
    obtain ⟨t, ts, hts⟩ : ∃ t ts, splitOnSpace x = t :: ts := by
      cases h' : splitOnSpace x with
      | nil => exact absurd h' (splitOnSpace_ne_nil x)
      | cons a l => exact ⟨a, l, rfl⟩
    by_cases h : c = ' '
    · subst h
      simp [splitOnSpace, ih]
    · have hl : splitOnSpace (c :: (x ++ ' ' :: y)) =
          (c :: t) :: (ts ++ splitOnSpace y) := by
        rw [splitOnSpace_cons, if_neg h, ih, hts]
        rfl
      have hr : splitOnSpace (c :: x) = (c :: t) :: ts := by
        rw [splitOnSpace_cons, if_neg h, hts]
      rw [List.cons_append, hl, hr, List.cons_append]

theorem splitOnSpace_no_space (w : List Char) (h : ' ' ∉ w) :
    splitOnSpace w = [w] := by
  induction w with
  | nil => simp [splitOnSpace]
  | cons c x ih =>
    have hc : ¬ c = ' ' := fun he => h (by simp [he])
    have hx : ' ' ∉ x := fun hm => h (List.mem_cons_of_mem _ hm)
    simp [splitOnSpace, if_neg hc, ih hx]

theorem flatten_filter_cons (t : List Char) (ts : List (List Char)) :
    (((t :: ts).filter (fun w => !w.isEmpty)).flatten) =
      t ++ ((ts.filter (fun w => !w.isEmpty)).flatten) := by
  cases t <;> simp [List.filter]

theorem flatten_splitOnSpace_filtered (s : List Char) :
    (((splitOnSpace s).filter (fun w => !w.isEmpty)).flatten) =
      s.filter (fun c => c ≠ ' ') := by
  induction s with
  | nil => simp [splitOnSpace]
  | cons c rest ih =>
    obtain ⟨t, ts, hts⟩ : ∃ t ts, splitOnSpace rest = t :: ts := by
      cases h' : splitOnSpace rest with
      | nil => exact absurd h' (splitOnSpace_ne_nil rest)
      | cons a l => exact ⟨a, l, rfl⟩
    rw [hts] at ih
    rw [flatten_filter_cons] at ih
    by_cases h : c = ' '
    · subst h
      have hsplit : splitOnSpace (' ' :: rest) = [] :: t :: ts := by
        rw [splitOnSpace_cons, if_pos rfl, hts]
      rw [hsplit, flatten_filter_cons, flatten_filter_cons]
      have hfc : (' ' :: rest).filter (fun x => x ≠ ' ') =
          rest.filter (fun x => x ≠ ' ') := by
        simp [List.filter_cons]
      rw [hfc, ← ih]
      simp
    · have hsplit : splitOnSpace (c :: rest) = (c :: t) :: ts := by
        rw [splitOnSpace_cons, if_neg h, hts]
      rw [hsplit, flatten_filter_cons]
      have hfc : (c :: rest).filter (fun x => x ≠ ' ') =
          c :: rest.filter (fun x => x ≠ ' ') := by
        simp [List.filter_cons, h]
      rw [hfc, List.cons_append, ih]

theorem isMark_ne_space {c : Char} (h : isMark c = true) : c ≠ ' ' := by
  intro he
  subst he
  exact absurd h (by decide)

theorem addMarkSpaces_no_marks (w : List Char)
    (h : ∀ c ∈ w, isMark c = false) : addMarkSpaces w = w := by
  induction w with
  | nil => simp [addMarkSpaces]
  | cons c x ih =>
    have hc := h c (by simp)
    have hx : ∀ c ∈ x, isMark c = false := fun d hd => h d (by simp [hd])
    simp [addMarkSpaces, hc] at ih ⊢
    exact ih hx

theorem filter_addMarkSpaces (s : List Char) :
    (addMarkSpaces s).filter (fun c => c ≠ ' ') =
      s.filter (fun c => c ≠ ' ') := by
  induction s with
  | nil => simp [addMarkSpaces]
  | cons c rest ih =>
    have hstep : addMarkSpaces (c :: rest) =
        (if isMark c then [' ', c, ' '] else [c]) ++ addMarkSpaces rest := by
      simp [addMarkSpaces]
    rw [hstep, List.filter_append, ih]
    by_cases h : isMark c
    · have hc : c ≠ ' ' := isMark_ne_space h
      rw [if_pos h]
      simp [List.filter_cons, hc]
    · rw [if_neg h]
      by_cases hc : c = ' ' <;> simp [List.filter_cons, hc]

theorem map_text_tokenizeAux (toks : List (List Char)) :
    ∀ cur : Int, (tokenizeAux toks cur).map DisplayItem.text = toks := by
  induction toks with
  | nil => intro cur; simp [tokenizeAux]
  | cons w rest ih =>
    intro cur
    by_cases h : isWaqfToken w
    · simp [tokenizeAux, h, ih]
    · simp [tokenizeAux, h, ih]

theorem map_text_displayStructure (text : List Char) :
    (displayStructure text).map DisplayItem.text = originalWords text :=
  map_text_tokenizeAux (originalWords text) (-1)

theorem flatten_originalWords (text : List Char) :
    (originalWords text).flatten = text.filter (fun c => c ≠ ' ') := by
  unfold originalWords
  rw [flatten_splitOnSpace_filtered, filter_addMarkSpaces]

/-- Tokens over which single-space joining is lossless: nonempty, no inner
space, and either mark-free or a single mark character. -/
def GoodTok (w : List Char) : Prop :=
  w ≠ [] ∧ ' ' ∉ w ∧
    ((∀ c ∈ w, isMark c = false) ∨
      (w.length = 1 ∧ ∀ c ∈ w, isMark c = true))

instance (w : List Char) : Decidable (GoodTok w) := by
  unfold GoodTok
  infer_instance

theorem originalWords_single (w : List Char) (hw : GoodTok w) :
    originalWords w = [w] := by
  obtain ⟨hne, hsp, hcase⟩ := hw
  rcases hcase with h | ⟨hlen, hmk⟩
  · unfold originalWords
    rw [addMarkSpaces_no_marks w h, splitOnSpace_no_space w hsp]
    cases w with
    | nil => exact absurd rfl hne
    | cons a l => simp [List.filter]
  · obtain ⟨c, rfl⟩ : ∃ c, w = [c] := by
      cases w with
      | nil => simp at hlen
      | cons a l =>
        cases l with
        | nil => exact ⟨a, rfl⟩
        | cons b m => simp at hlen
    have hm : isMark c = true := hmk c (by simp)
    have hc : ¬ c = ' ' := isMark_ne_space hm
    have hadd : addMarkSpaces [c] = [' ', c, ' '] := by
      simp [addMarkSpaces, hm]
    have h1 : splitOnSpace ([' '] : List Char) = [[], []] := by
      rw [splitOnSpace_cons, if_pos rfl]
      rfl
    have h2 : splitOnSpace [c, ' '] = [[c], []] := by
      rw [splitOnSpace_cons, if_neg hc, h1]
    have hsplit : splitOnSpace [' ', c, ' '] = [[], [c], []] := by
      rw [splitOnSpace_cons, if_pos rfl, h2]
    unfold originalWords
    rw [hadd, hsplit]
    simp [List.filter]

theorem intercalate_space_single (w : List Char) :
    List.intercalate [' '] [w] = w := by
  simp [List.intercalate]

theorem intercalate_space_cons₂ (a b : List Char) (l : List (List Char)) :
    List.intercalate [' '] (a :: b :: l) =
      a ++ ' ' :: List.intercalate [' '] (b :: l) := by
  simp [List.intercalate, List.intersperse]

theorem originalWords_append_space (x y : List Char) :
    originalWords (x ++ ' ' :: y) = originalWords x ++ originalWords y := by
  unfold originalWords
  have hadd : addMarkSpaces (x ++ ' ' :: y) =
      addMarkSpaces x ++ ' ' :: addMarkSpaces y := by
    have h1 : addMarkSpaces (x ++ ' ' :: y) =
        addMarkSpaces x ++ addMarkSpaces (' ' :: y) := by
      simp [addMarkSpaces]
    have h2 : addMarkSpaces (' ' :: y) = ' ' :: addMarkSpaces y := by
      simp [addMarkSpaces, show isMark ' ' = false from rfl]
    rw [h1, h2]
  rw [hadd, splitOnSpace_append_space, List.filter_append]

theorem originalWords_intercalate (toks : List (List Char))
    (h : ∀ w ∈ toks, GoodTok w) :
    originalWords (List.intercalate [' '] toks) = toks := by
  induction toks with
  | nil => rfl
  | cons w rest ih =>
    cases rest with
    | nil =>
      rw [intercalate_space_single]
      exact originalWords_single w (h w (by simp))
    | cons b m =>
      rw [intercalate_space_cons₂, originalWords_append_space,
        originalWords_single w (h w (by simp)),
        ih (fun u hu => h u (by simp [hu]))]
      rfl

/-- Claim C6 (amended): the tokenizer loses no non-space character (the
concatenation of all `rawText` fragments is the verse text with its space
separators removed), the empty verse text yields an empty item list, and the
single-space join of all `rawText` fragments reproduces the verse text
exactly whenever the text is a single-space-separated sequence of tokens
each of which is mark-free or a lone pause-mark character. -/
theorem tokenizer_roundTrip (text : List Char) :
    ((displayStructure text).map DisplayItem.text).flatten =
      text.filter (fun c => c ≠ ' ') ∧
    displayStructure [] = [] ∧
    (∀ toks : List (List Char), (∀ w ∈ toks, GoodTok w) →
      text = List.intercalate [' '] toks →
      List.intercalate [' ']
        ((displayStructure text).map DisplayItem.text) = text) := by
  refine ⟨?_, rfl, ?_⟩
  · rw [map_text_displayStructure, flatten_originalWords]
  · intro toks htoks htext
    rw [map_text_displayStructure, htext, originalWords_intercalate toks htoks]

/-- The pause mark character U+06D6. -/
def waqfChar : Char := Char.ofNat 0x6D6

/-- Claim C6 as stated is false: for the verse text consisting of a word
with a pause mark attached directly to it (no separator), joining the
produced `rawText` fragments with single spaces does not reproduce the
original text. -/
theorem tokenizer_roundTrip_cex :
    List.intercalate [' ']
      ((displayStructure ['a', waqfChar]).map DisplayItem.text) ≠
      ['a', waqfChar] := by decide

/-- Concrete tokens for the C6 witness. -/
def toksC6 : List (List Char) := [['a', 'b'], [waqfChar], ['c']]

/-- Concrete verse text for the C6 witness. -/
def textC6 : List Char := ['a', 'b', ' ', waqfChar, ' ', 'c']

/-- Concrete instance of C6 (amended): the round trip holds on a
well-separated text. -/
theorem tokenizer_roundTrip_witness :
    (∀ w ∈ toksC6, GoodTok w) ∧
    textC6 = List.intercalate [' '] toksC6 ∧
    List.intercalate [' ']
      ((displayStructure textC6).map DisplayItem.text) = textC6 :=
  ⟨by decide, by decide,
    (tokenizer_roundTrip textC6).2.2 toksC6 (by decide) (by decide)⟩

theorem tokenizeAux_cons (w : List Char) (rest : List (List Char)) (cur : Int) :
    tokenizeAux (w :: rest) cur =
      if isWaqfToken w then
        ⟨false, w, cur⟩ :: tokenizeAux rest cur
      else
        ⟨true, w, cur + 1⟩ :: tokenizeAux rest (cur + 1) := rfl

theorem tokenizeAux_waqf_prefix (toks : List (List Char)) :
    ∀ (cur : Int) (pre : List DisplayItem) (item : DisplayItem)
      (post : List DisplayItem),
      tokenizeAux toks cur = pre ++ item :: post →
      (∀ x ∈ pre, x.isWordItem = false) →
      item.isWordItem = false →
      item.logicIndex = cur := by
  induction toks with
  | nil =>
    intro cur pre item post heq _ _
    simp [tokenizeAux] at heq
  | cons w rest ih =>
    intro cur pre item post heq hpre hitem
    rw [tokenizeAux_cons] at heq
    by_cases h : isWaqfToken w
    · rw [if_pos h] at heq
      cases pre with
      | nil =>
        rw [List.nil_append] at heq
        injection heq with h1 h2
        rw [← h1]
      | cons p pre' =>
        rw [List.cons_append] at heq
        injection heq with h1 h2
        exact ih cur pre' item post h2
          (fun x hx => hpre x (List.mem_cons_of_mem p hx)) hitem
    · rw [if_neg h] at heq
      cases pre with
      | nil =>
        rw [List.nil_append] at heq
        injection heq with h1 h2
        rw [← h1] at hitem
        simp at hitem
      | cons p pre' =>
        rw [List.cons_append] at heq
        injection heq with h1 h2
        have := hpre p (by simp)
        rw [← h1] at this
        simp at this

theorem tokenizeAux_waqf_after_word (toks : List (List Char)) :
    ∀ (cur : Int) (pre : List DisplayItem) (w : DisplayItem)
      (mid : List DisplayItem) (item : DisplayItem) (post : List DisplayItem),
      tokenizeAux toks cur = pre ++ w :: (mid ++ item :: post) →
      w.isWordItem = true →
      (∀ x ∈ mid, x.isWordItem = false) →
      item.isWordItem = false →
      item.logicIndex = w.logicIndex := by
  induction toks with
  | nil =>
    intro cur pre w mid item post heq _ _ _
    simp [tokenizeAux] at heq
  | cons tok rest ih =>
    intro cur pre w mid item post heq hw hmid hitem
    rw [tokenizeAux_cons] at heq
    by_cases h : isWaqfToken tok
    · rw [if_pos h] at heq
      cases pre with
      | nil =>
        rw [List.nil_append] at heq
        injection heq with h1 h2
        rw [← h1] at hw
        simp at hw
      | cons p pre' =>
        rw [List.cons_append] at heq
        injection heq with h1 h2
        exact ih cur pre' w mid item post h2 hw hmid hitem
    · rw [if_neg h] at heq
      cases pre with
      | nil =>
        rw [List.nil_append] at heq
        injection heq with h1 h2
        rw [← h1]
        exact tokenizeAux_waqf_prefix rest (cur + 1) mid item post h2 hmid hitem
      | cons p pre' =>
        rw [List.cons_append] at heq
        injection heq with h1 h2
        exact ih (cur + 1) pre' w mid item post h2 hw hmid hitem

/-- Claim C10: a pause-mark item that no word item precedes carries the
sentinel logic index -1 and, since visibility is `logicIndex <=
currentWordIndex`, is visible at every non-negative current word index;
every other pause-mark item carries exactly the logic index of the nearest
word item before it. -/
theorem waqf_logicIndex (text : List Char) (pre : List DisplayItem)
    (item : DisplayItem) (post : List DisplayItem)
    (heq : displayStructure text = pre ++ item :: post)
    (hitem : item.isWordItem = false) :
    ((∀ x ∈ pre, x.isWordItem = false) →
      item.logicIndex = -1 ∧
      ∀ cw : Int, 0 ≤ cw → isVisible item cw = true) ∧
    (∀ (pre' : List DisplayItem) (w : DisplayItem) (mid : List DisplayItem),
      pre = pre' ++ w :: mid → w.isWordItem = true →
      (∀ x ∈ mid, x.isWordItem = false) →
      item.logicIndex = w.logicIndex) := by
  have heq' : tokenizeAux (originalWords text) (-1) = pre ++ item :: post := heq
  constructor
  · intro hpre
    have hidx : item.logicIndex = -1 :=
      tokenizeAux_waqf_prefix (originalWords text) (-1) pre item post heq'
        hpre hitem
    refine ⟨hidx, ?_⟩
    intro cw hcw
    unfold isVisible
    rw [hidx]
    simp only [decide_eq_true_eq]
    omega
  · intro pre' w mid hpre hw hmid
    subst hpre
    rw [List.append_assoc, List.cons_append] at heq'
    exact tokenizeAux_waqf_after_word (originalWords text) (-1) pre' w
      mid item post heq' hw hmid hitem

/-- Concrete leading pause-mark item for the C10 witness. -/
def itemC10 : DisplayItem := ⟨false, [waqfChar], -1⟩

/-- Items following `itemC10` in `displayStructure textC10`. -/
def postC10 : List DisplayItem := [⟨true, ['a'], 0⟩, ⟨false, [waqfChar], 0⟩]

/-- Concrete verse text for the C10 witness: pause mark, word, pause mark. -/
def textC10 : List Char := [waqfChar, ' ', 'a', ' ', waqfChar]

/-- Concrete instance of C10: the leading pause mark gets logic index -1 and
is visible at the first revealed word. -/
theorem waqf_logicIndex_witness :
    displayStructure textC10 = [] ++ itemC10 :: postC10 ∧
    itemC10.isWordItem = false ∧
    itemC10.logicIndex = -1 ∧ isVisible itemC10 0 = true := by
  have h := (waqf_logicIndex textC10 [] itemC10 postC10 (by decide)
    (by decide)).1 (fun x hx => absurd hx (List.not_mem_nil x))
  exact ⟨by decide, by decide, h.1, h.2 0 (by norm_num)⟩

theorem analysisTokenizeAux_cons (w : List Char) (rest : List (List Char))
    (counter : Int) :
    analysisTokenizeAux (w :: rest) counter =
      if isWaqfToken w then
        ⟨false, w, none⟩ :: analysisTokenizeAux rest counter
      else
        ⟨true, w, some counter⟩ :: analysisTokenizeAux rest (counter + 1) := rfl

theorem wordPairs_tokenizeAux (toks : List (List Char)) :
    ∀ cur : Int,
      analysisWordPairs (analysisTokenizeAux toks (cur + 1)) =
        ((tokenizeAux toks cur).filter (fun it => it.isWordItem)).map
          (fun it => (it.text, it.logicIndex)) := by
  induction toks with
  | nil => intro cur; rfl
  | cons w rest ih =>
    intro cur
    rw [analysisTokenizeAux_cons, tokenizeAux_cons]
    by_cases h : isWaqfToken w
    · rw [if_pos h, if_pos h]
      unfold analysisWordPairs
      simp only [List.filter_cons]
      norm_num
      exact ih cur
    · rw [if_neg h, if_neg h]
      unfold analysisWordPairs
      simp only [List.filter_cons]
      norm_num
      exact ih (cur + 1)

/-- Claim C7 (amended, current Analysis view): the `displayableItems`
tokenization of src/components/AnalysisView.tsx produces exactly the same
(rawText, logicIndex) word list as the session engine tokenizer, so every
mistake is attributed to the same word fragment at the same logic index. -/
theorem analysis_attribution_agrees (text : List Char) :
    analysisWordPairs (analysisDisplayStructure text) = engineWordPairs text := by
  have h := wordPairs_tokenizeAux (originalWords text) (-1)
  rw [show ((-1 : Int) + 1) = 0 by norm_num] at h
  exact h

/-- Claim C7 as stated (over both Analysis-view variants) is false: the
legacy variant of src/unnamed/part_002 attributes word index 0 of the verse
text word-plus-glued-mark to a different rawText fragment than the engine
tokenizer does. -/
theorem analysis_attribution_cex :
    analysisWordPairs (legacyDisplayStructure ['a', waqfChar]) ≠
      engineWordPairs ['a', waqfChar] := by decide

/-! ### Session start -/

theorem jsFindIndex_none (p : Ayah → Bool) (l : List Ayah)
    (h : ∀ a ∈ l, p a = false) : jsFindIndex p l = -1 := by
  unfold jsFindIndex
  have hidx : l.findIdx? p = none := by
    induction l with
    | nil => rfl
    | cons a rest ih =>
      have ha := h a (by simp)
      have ih' := ih (fun x hx => h x (by simp [hx]))
      simp [List.findIdx?_cons, ha, ih']
  rw [hidx]

theorem jsFindIndex_first (p : Ayah → Bool) (l : List Ayah) (i : Nat)
    (hi : i < l.length) (hp : p (l.get ⟨i, hi⟩) = true)
    (hmin : ∀ (j : Nat) (hj : j < l.length), j < i →
      p (l.get ⟨j, hj⟩) = false) :
    jsFindIndex p l = (i : Int) := by
  unfold jsFindIndex
  have hidx : l.findIdx? p = some i := by
    induction l generalizing i with
    | nil => simp at hi
    | cons a rest ih =>
      cases i with
      | zero =>
        have ha : p a = true := hp
        simp [List.findIdx?_cons, ha]
      | succ i' =>
        have ha : p a = false := hmin 0 (by simp) (by omega)
        have hi' : i' < rest.length := by simpa using hi
        have hp' : p (rest.get ⟨i', hi'⟩) = true := hp
        have hmin' : ∀ (j : Nat) (hj : j < rest.length), j < i' →
            p (rest.get ⟨j, hj⟩) = false := by
          intro j hj hji
          exact hmin (j + 1) (by simpa using Nat.succ_lt_succ hj)
            (by omega)
        have := ih i' hi' hp' hmin'
        simp [List.findIdx?_cons, ha, this]
  rw [hidx]

/-- Claim C8 (amended): `handleStartMemorization` resets the mistake log,
word pointers, furthest progress and counter as the claim states, but the
resolved entry verse is: in Juz mode the first verse with `number > 0`
(index 0 when there is none); in single-chapter mode the first verse whose
`number` equals the requested start number, falling back to the first verse
with `number > 0` (index 0 when there is none). -/
theorem handleStartMemorization_spec (ayahs : List Ayah) (isJuz : Bool)
    (startAyah : Int) :
    ((handleStartMemorization ayahs isJuz startAyah).mistakes = [] ∧
      (handleStartMemorization ayahs isJuz startAyah).currentWordIndex = 0 ∧
      (handleStartMemorization ayahs isJuz startAyah).furthestWordIndex = 0 ∧
      (handleStartMemorization ayahs isJuz startAyah).totalWordsInSession = 1 ∧
      (handleStartMemorization ayahs isJuz startAyah).furthestAyahIndex =
        (handleStartMemorization ayahs isJuz startAyah).currentAyahIndex ∧
      (handleStartMemorization ayahs isJuz startAyah).sessionStartIndex =
        (handleStartMemorization ayahs isJuz startAyah).currentAyahIndex) ∧
    (isJuz = true →
      ((∀ a ∈ ayahs, ¬ 0 < a.number) →
        (handleStartMemorization ayahs isJuz startAyah).currentAyahIndex = 0) ∧
      (∀ (i : Nat) (hi : i < ayahs.length),
        0 < (ayahs.get ⟨i, hi⟩).number →
        (∀ (j : Nat) (hj : j < ayahs.length), j < i →
          ¬ 0 < (ayahs.get ⟨j, hj⟩).number) →
        (handleStartMemorization ayahs isJuz startAyah).currentAyahIndex = i)) ∧
    (isJuz = false →
      (∀ (i : Nat) (hi : i < ayahs.length),
        (ayahs.get ⟨i, hi⟩).number = startAyah →
        (∀ (j : Nat) (hj : j < ayahs.length), j < i →
          (ayahs.get ⟨j, hj⟩).number ≠ startAyah) →
        (handleStartMemorization ayahs isJuz startAyah).currentAyahIndex = i) ∧
      ((∀ a ∈ ayahs, a.number ≠ startAyah) →
        ((∀ a ∈ ayahs, ¬ 0 < a.number) →
          (handleStartMemorization ayahs isJuz startAyah).currentAyahIndex
            = 0) ∧
        (∀ (i : Nat) (hi : i < ayahs.length),
          0 < (ayahs.get ⟨i, hi⟩).number →
          (∀ (j : Nat) (hj : j < ayahs.length), j < i →
            ¬ 0 < (ayahs.get ⟨j, hj⟩).number) →
          (handleStartMemorization ayahs isJuz startAyah).currentAyahIndex
            = i))) := by
  refine ⟨?_, ?_, ?_⟩
  · simp [handleStartMemorization]
  · intro hj
    subst hj
    constructor
    · intro hnone
      have hfr : jsFindIndex (fun a => 0 < a.number) ayahs = -1 :=
        jsFindIndex_none _ ayahs
          (fun a ha => by simpa using hnone a ha)
      simp [handleStartMemorization, hfr]
    · intro i hi hp hmin
      have hfr : jsFindIndex (fun a => 0 < a.number) ayahs = (i : Int) :=
        jsFindIndex_first _ ayahs i hi (by simpa using hp)
          (fun j hj hji => by simpa using hmin j hj hji)
      have hne : (i : Int) ≠ -1 := by omega
      simp [handleStartMemorization, hfr, hne]
  · intro hj
    subst hj
    constructor
    · intro i hi hp hmin
      have hreq : jsFindIndex (fun a => a.number = startAyah) ayahs
          = (i : Int) :=
        jsFindIndex_first _ ayahs i hi (by simpa using hp)
          (fun j hj hji => by simpa using hmin j hj hji)
      have hne : (i : Int) ≠ -1 := by omega
      simp [handleStartMemorization, hreq, hne]
    · intro hnomatch
      have hreq : jsFindIndex (fun a => a.number = startAyah) ayahs = -1 :=
        jsFindIndex_none _ ayahs
          (fun a ha => by simpa using hnomatch a ha)
      constructor
      · intro hnone
        have hfr : jsFindIndex (fun a => 0 < a.number) ayahs = -1 :=
          jsFindIndex_none _ ayahs
            (fun a ha => by simpa using hnone a ha)
        simp [handleStartMemorization, hfr, hreq]
      · intro i hi hp hmin
        have hfr : jsFindIndex (fun a => 0 < a.number) ayahs = (i : Int) :=
          jsFindIndex_first _ ayahs i hi (by simpa using hp)
            (fun j hj hji => by simpa using hmin j hj hji)
        have hne : (i : Int) ≠ -1 := by omega
        simp [handleStartMemorization, hfr, hreq, hne]

/-- Concrete ayah list for C8: a preamble placeholder followed by verse 1. -/
def ayahsC8 : List Ayah := [⟨0, ['b']⟩, ⟨1, ['a']⟩]

/-- Claim C8 as stated is false: in Juz mode with a leading preamble the
entry verse is not the first verse of the supplied list. -/
theorem handleStartMemorization_cex :
    (handleStartMemorization ayahsC8 true 1).currentAyahIndex ≠ 0 := by decide

/-- Concrete instance of C8 (amended): in Juz mode the entry resolves to the
first verse with `number > 0`, here index 1. -/
theorem handleStartMemorization_spec_witness :
    0 < (ayahsC8.get ⟨1, by decide⟩).number ∧
    (handleStartMemorization ayahsC8 true 1).currentAyahIndex = 1 := by
  refine ⟨by decide, ?_⟩
  exact ((handleStartMemorization_spec ayahsC8 true 1).2.1 rfl).2 1 (by decide)
    (by decide)
    (by
      intro j hj hj1
      have hj0 : j = 0 := by omega
      subst hj0
      exact (by decide :
        ¬0 < (ayahsC8.get ⟨0, (by decide : 0 < ayahsC8.length)⟩).number))

/-! ### Mistake log -/

/-- The position of a recorded mistake. -/
def mistakePos (m : Mistake) : Int × Int := (m.ayahIndex, m.wordIndex)

theorem handleNextWord_mistakes (ayahs : List Ayah) (s : EngineState) :
    (handleNextWord ayahs s).mistakes = s.mistakes := by
  unfold handleNextWord
  dsimp only
  split_ifs <;> rfl

theorem handlePreviousWord_mistakes (ayahs : List Ayah) (s : EngineState) :
    (handlePreviousWord ayahs s).mistakes = s.mistakes := by
  unfold handlePreviousWord
  dsimp only
  split_ifs <;> rfl

theorem addMistake_position (k : MistakeType) (s : EngineState) :
    (addMistake k s).currentAyahIndex = s.currentAyahIndex ∧
    (addMistake k s).currentWordIndex = s.currentWordIndex := by
  unfold addMistake
  split_ifs <;> exact ⟨rfl, rfl⟩

theorem step_mistakes_nodup (ayahs : List Ayah) (op : Op) (s : EngineState)
    (h : (s.mistakes.map mistakePos).Nodup) :
    ((step ayahs op s).mistakes.map mistakePos).Nodup := by
  cases op with
  | next =>
    show ((handleNextWord ayahs s).mistakes.map mistakePos).Nodup
    rw [handleNextWord_mistakes]
    exact h
  | prev =>
    show ((handlePreviousWord ayahs s).mistakes.map mistakePos).Nodup
    rw [handlePreviousWord_mistakes]
    exact h
  | mark k =>
    show ((addMistake k s).mistakes.map mistakePos).Nodup
    unfold addMistake
    by_cases hm : mistakeMarkedForWord s
    · rw [if_pos hm]
      exact h
    · rw [if_neg hm]
      simp only [List.map_append, List.map_cons, List.map_nil]
      refine List.Nodup.append h (List.nodup_singleton _) ?_
      intro p hp hps
      rcases List.mem_singleton.mp hps with rfl
      obtain ⟨m, hm1, hm2⟩ := List.mem_map.mp hp
      apply hm
      unfold mistakeMarkedForWord
      rw [List.any_eq_true]
      refine ⟨m, hm1, ?_⟩
      have h1 : m.ayahIndex = s.currentAyahIndex := by
        have := congrArg Prod.fst hm2
        simpa [mistakePos] using this
      have h2 : m.wordIndex = s.currentWordIndex := by
        have := congrArg Prod.snd hm2
        simpa [mistakePos] using this
      simp [h1, h2]

theorem run_mistakes_nodup (ayahs : List Ayah) (ops : List Op) :
    ∀ s : EngineState, (s.mistakes.map mistakePos).Nodup →
      ((run ayahs s ops).mistakes.map mistakePos).Nodup := by
  induction ops with
  | nil => intro s h; exact h
  | cons op ops ih =>
    intro s h
    exact ih _ (step_mistakes_nodup ayahs op s h)

/-- Claim C5: `addMistake` is a no-op (same state, hence same Mistake Log)
whenever a mistake is already recorded at the current position regardless of
kind, it never moves the session position, and along any event sequence from
a fresh start the Mistake Log holds at most one mistake per
(verseIndex, wordIndex) pair. -/
theorem addMistake_idempotent (ayahs : List Ayah) (isJuz : Bool)
    (startAyah : Int) (ops : List Op) (s : EngineState) (k : MistakeType)
    (h : mistakeMarkedForWord s = true) :
    addMistake k s = s ∧
    (∀ (k' : MistakeType) (s' : EngineState),
      (addMistake k' s').currentAyahIndex = s'.currentAyahIndex ∧
      (addMistake k' s').currentWordIndex = s'.currentWordIndex) ∧
    ((run ayahs (handleStartMemorization ayahs isJuz startAyah)
        ops).mistakes.map mistakePos).Nodup := by
  refine ⟨?_, ?_, ?_⟩
  · unfold addMistake
    rw [if_pos h]
  · intro k' s'
    exact addMistake_position k' s'
  · apply run_mistakes_nodup
    simp [handleStartMemorization]

/-- Concrete state for the C5 witness: fresh session with one mistake
already recorded at the current word. -/
def stateC5 : EngineState :=
  addMistake MistakeType.forgot (handleStartMemorization [⟨1, ['a']⟩] true 1)

/-- Concrete instance of C5: marking the already-marked word again with a
different kind leaves the state unchanged. -/
theorem addMistake_idempotent_witness :
    mistakeMarkedForWord stateC5 = true ∧
    addMistake MistakeType.tajwid stateC5 = stateC5 :=
  ⟨by decide,
    (addMistake_idempotent [⟨1, ['a']⟩] true 1 [] stateC5 MistakeType.tajwid
      (by decide)).1⟩

/-! ### Furthest-progress counting -/

/-- Lexicographic order on (verseIndex, wordIndex) positions. -/
def posLE (p q : Int × Int) : Prop :=
  p.1 < q.1 ∨ (p.1 = q.1 ∧ p.2 ≤ q.2)

/-- Strict lexicographic order on positions. -/
def posLT (p q : Int × Int) : Prop :=
  p.1 < q.1 ∨ (p.1 = q.1 ∧ p.2 < q.2)

theorem posLE_refl (p : Int × Int) : posLE p p := Or.inr ⟨rfl, le_refl _⟩

theorem posLE_trans {p q r : Int × Int} (h1 : posLE p q) (h2 : posLE q r) :
    posLE p r := by
  unfold posLE at *
  omega

theorem posLT_posLE {p q : Int × Int} (h : posLT p q) : posLE p q := by
  unfold posLT at h
  unfold posLE
  omega

theorem posLT_asymm {p q : Int × Int} (h1 : posLT p q) (h2 : posLE q p) :
    False := by
  unfold posLT at h1
  unfold posLE at h2
  omega

/-- A furthest position that the counter counts: not the entry into a
preamble verse (word 0 of a verse with `number == 0`). -/
def keepPos (ayahs : List Ayah) (p : Int × Int) : Bool :=
  !(isPreambleAt ayahs p.1 && decide (p.2 = 0))

/-- The claim's stricter exclusion: every preamble-verse position. -/
def claimKeepPos (ayahs : List Ayah) (p : Int × Int) : Bool :=
  !isPreambleAt ayahs p.1

/-- Number of distinct furthest positions reached along a run, excluding
preamble entries (word 0 of a preamble verse). -/
def furthestCount (ayahs : List Ayah) (s : EngineState) (ops : List Op) :
    Nat :=
  (((trace ayahs s ops).map furPos).filter (keepPos ayahs)).dedup.length

/-- Number of distinct furthest positions reached along a run, excluding
every preamble-verse position (the claim's reading). -/
def claimFurthestCount (ayahs : List Ayah) (s : EngineState)
    (ops : List Op) : Nat :=
  (((trace ayahs s ops).map furPos).filter (claimKeepPos ayahs)).dedup.length

/-- The set of furthest positions reached along a run. -/
def furSet (ayahs : List Ayah) (s : EngineState) : List Op → Finset (Int × Int)
  | [] => {furPos s}
  | op :: ops => insert (furPos s) (furSet ayahs (step ayahs op s) ops)

theorem furPos_mem_furSet (ayahs : List Ayah) (ops : List Op)
    (s : EngineState) : furPos s ∈ furSet ayahs s ops := by
  cases ops with
  | nil => simp [furSet]
  | cons op ops => simp [furSet]

theorem furSet_eq_toFinset (ayahs : List Ayah) :
    ∀ (ops : List Op) (s : EngineState),
      furSet ayahs s ops = ((trace ayahs s ops).map furPos).toFinset := by
  intro ops
  induction ops with
  | nil => intro s; simp [furSet, trace]
  | cons op ops ih =>
    intro s
    simp [furSet, trace, ih (step ayahs op s)]

theorem keepPos_of_ne_zero (ayahs : List Ayah) (a w : Int) (h : w ≠ 0) :
    keepPos ayahs (a, w) = true := by
  simp [keepPos, h]

theorem step_furthest (ayahs : List Ayah) (op : Op) (s : EngineState)
    (hfw : 0 ≤ s.furthestWordIndex) :
    0 ≤ (step ayahs op s).furthestWordIndex ∧
    ((furPos (step ayahs op s) = furPos s ∧
        (step ayahs op s).totalWordsInSession = s.totalWordsInSession) ∨
      (posLT (furPos s) (furPos (step ayahs op s)) ∧
        (step ayahs op s).totalWordsInSession =
          s.totalWordsInSession +
            (if keepPos ayahs (furPos (step ayahs op s)) = true then 1
             else 0))) := by
  cases op with
  | prev =>
    simp only [step]
    unfold handlePreviousWord
    dsimp only
    split_ifs <;> exact ⟨hfw, Or.inl ⟨rfl, rfl⟩⟩
  | mark k =>
    simp only [step]
    unfold addMistake
    split_ifs <;> exact ⟨hfw, Or.inl ⟨rfl, rfl⟩⟩
  | next =>
    simp only [step]
    unfold handleNextWord
    dsimp only
    by_cases hA : (wordCountAt ayahs s.currentAyahIndex : Int) - 1 ≤
        s.currentWordIndex
    · -- last word in the ayah: move to the next ayah or end
      simp only [if_neg (not_not_intro hA)]
      by_cases hB : (s.currentAyahIndex + 1 : Int) < (ayahs.length : Int)
      · simp only [if_pos hB]
        by_cases hF : s.currentAyahIndex = s.furthestAyahIndex ∧
            s.currentWordIndex = s.furthestWordIndex
        · simp only [if_pos hF]
          refine ⟨by (try dsimp only); omega, Or.inr ⟨?_, ?_⟩⟩
          · unfold posLT furPos
            dsimp only
            omega
          · dsimp only [furPos]
            by_cases hpre : isPreambleAt ayahs (s.currentAyahIndex + 1) = true
            · simp only [if_neg (fun hc => hc.2 hpre :
                ¬((s.currentAyahIndex = s.furthestAyahIndex ∧
                    s.currentWordIndex = s.furthestWordIndex) ∧
                  ¬isPreambleAt ayahs (s.currentAyahIndex + 1) = true))]
              have hk : keepPos ayahs (s.currentAyahIndex + 1, 0) = false := by
                simp [keepPos, hpre]
              rw [hk]
              simp
            · simp only [if_pos (⟨hF, fun hc => hpre hc⟩ :
                (s.currentAyahIndex = s.furthestAyahIndex ∧
                    s.currentWordIndex = s.furthestWordIndex) ∧
                  ¬isPreambleAt ayahs (s.currentAyahIndex + 1) = true)]
              have hk : keepPos ayahs (s.currentAyahIndex + 1, 0) = true := by
                simp [keepPos, hpre]
              rw [hk]
              simp
        · simp only [if_neg hF, if_neg (fun hc => hF hc.1 :
            ¬((s.currentAyahIndex = s.furthestAyahIndex ∧
                s.currentWordIndex = s.furthestWordIndex) ∧
              ¬isPreambleAt ayahs (s.currentAyahIndex + 1) = true))]
          refine ⟨hfw, Or.inl ⟨?_, ?_⟩⟩ <;> first | rfl | trivial
      · simp only [if_neg hB]
        refine ⟨hfw, Or.inl ⟨?_, ?_⟩⟩ <;> first | rfl | trivial
    · -- not the last word: advance within the ayah
      simp only [if_pos (by omega :
        ¬((wordCountAt ayahs s.currentAyahIndex : Int) - 1 ≤
          s.currentWordIndex))]
      by_cases hF : s.currentAyahIndex = s.furthestAyahIndex ∧
          s.currentWordIndex = s.furthestWordIndex
      · simp only [if_pos hF]
        obtain ⟨hF1, hF2⟩ := hF
        refine ⟨by (try dsimp only); omega, Or.inr ⟨?_, ?_⟩⟩
        · unfold posLT furPos
          dsimp only
          omega
        · dsimp only [furPos]
          have hk : keepPos ayahs
              (s.furthestAyahIndex, s.currentWordIndex + 1) = true :=
            keepPos_of_ne_zero ayahs _ _ (by omega)
          rw [hk]
          simp
      · simp only [if_neg hF]
        refine ⟨hfw, Or.inl ⟨?_, ?_⟩⟩ <;> first | rfl | trivial

theorem furSet_ge (ayahs : List Ayah) :
    ∀ (ops : List Op) (s : EngineState), 0 ≤ s.furthestWordIndex →
      ∀ p ∈ furSet ayahs s ops, posLE (furPos s) p := by
  intro ops
  induction ops with
  | nil =>
    intro s _ p hp
    simp only [furSet, Finset.mem_singleton] at hp
    exact hp ▸ posLE_refl _
  | cons op ops ih =>
    intro s hfw p hp
    simp only [furSet, Finset.mem_insert] at hp
    rcases hp with rfl | hp'
    · exact posLE_refl _
    · obtain ⟨hfw', hcase⟩ := step_furthest ayahs op s hfw
      have hle1 : posLE (furPos s) (furPos (step ayahs op s)) := by
        rcases hcase with ⟨heq, _⟩ | ⟨hlt, _⟩
        · rw [heq]
          exact posLE_refl _
        · exact posLT_posLE hlt
      exact posLE_trans hle1 (ih (step ayahs op s) hfw' p hp')

theorem run_total_eq (ayahs : List Ayah) :
    ∀ (ops : List Op) (s : EngineState), 0 ≤ s.furthestWordIndex →
      (run ayahs s ops).totalWordsInSession +
          (if keepPos ayahs (furPos s) = true then 1 else 0) =
        s.totalWordsInSession +
          ((furSet ayahs s ops).filter
            (fun p => keepPos ayahs p = true)).card := by
  intro ops
  induction ops with
  | nil =>
    intro s _
    simp only [run, furSet, Finset.filter_singleton]
    by_cases hk : keepPos ayahs (furPos s) = true
    · rw [if_pos hk, if_pos hk]
      simp
    · rw [if_neg hk, if_neg hk]
      simp
  | cons op ops ih =>
    intro s hfw
    obtain ⟨hfw', hcase⟩ := step_furthest ayahs op s hfw
    have hih := ih (step ayahs op s) hfw'
    simp only [run]
    rcases hcase with ⟨heq, htot⟩ | ⟨hlt, htot⟩
    · have hmem : furPos s ∈ furSet ayahs (step ayahs op s) ops :=
        heq ▸ furPos_mem_furSet ayahs ops (step ayahs op s)
      have hins : furSet ayahs s (op :: ops) =
          furSet ayahs (step ayahs op s) ops := by
        simp only [furSet]
        exact Finset.insert_eq_self.mpr hmem
      rw [hins]
      rw [heq, htot] at hih
      exact hih
    · have hnotmem : furPos s ∉ furSet ayahs (step ayahs op s) ops := by
        intro hmem
        exact posLT_asymm hlt
          (furSet_ge ayahs ops (step ayahs op s) hfw' (furPos s) hmem)
      have hins : furSet ayahs s (op :: ops) =
          insert (furPos s) (furSet ayahs (step ayahs op s) ops) := rfl
      rw [hins, Finset.filter_insert]
      by_cases hk2 : keepPos ayahs (furPos (step ayahs op s)) = true
      · rw [if_pos hk2] at htot hih
        by_cases hk : keepPos ayahs (furPos s) = true
        · rw [if_pos hk, if_pos hk, Finset.card_insert_of_not_mem
            (fun hmem => hnotmem (Finset.mem_of_mem_filter _ hmem))]
          omega
        · rw [if_neg hk, if_neg hk]
          omega
      · rw [if_neg hk2] at htot hih
        by_cases hk : keepPos ayahs (furPos s) = true
        · rw [if_pos hk, if_pos hk, Finset.card_insert_of_not_mem
            (fun hmem => hnotmem (Finset.mem_of_mem_filter _ hmem))]
          omega
        · rw [if_neg hk, if_neg hk]
          omega

theorem run_append (ayahs : List Ayah) :
    ∀ (pre suf : List Op) (s : EngineState),
      run ayahs s (pre ++ suf) = run ayahs (run ayahs s pre) suf := by
  intro pre
  induction pre with
  | nil => intro suf s; rfl
  | cons op pre ih =>
    intro suf s
    simp only [List.cons_append, run]
    exact ih suf (step ayahs op s)

theorem step_total_le (ayahs : List Ayah) (op : Op) (s : EngineState) :
    s.totalWordsInSession ≤ (step ayahs op s).totalWordsInSession := by
  cases op with
  | prev =>
    simp only [step]
    unfold handlePreviousWord
    dsimp only
    split_ifs <;> exact le_refl _
  | mark k =>
    simp only [step]
    unfold addMistake
    split_ifs <;> exact le_refl _
  | next =>
    simp only [step]
    unfold handleNextWord
    dsimp only
    split_ifs <;> first | exact le_refl _ | (dsimp only; omega)

theorem run_total_le (ayahs : List Ayah) :
    ∀ (ops : List Op) (s : EngineState),
      s.totalWordsInSession ≤ (run ayahs s ops).totalWordsInSession := by
  intro ops
  induction ops with
  | nil => intro s; exact le_refl _
  | cons op ops ih =>
    intro s
    exact le_trans (step_total_le ayahs op s) (ih (step ayahs op s))

theorem card_filter_toFinset (l : List (Int × Int))
    (p : (Int × Int) → Bool) :
    (l.toFinset.filter (fun x => p x = true)).card =
      (l.filter p).dedup.length := by
  rw [← List.card_toFinset, List.toFinset_filter]

/-- Claim C1 (amended): from a freshly started session whose entry verse is
not a preamble, `totalWordsInSession` is non-decreasing along any event
sequence, and after any sequence it equals the number of distinct
(verseIndex, wordIndex) positions ever the furthest point reached, where the
excluded positions are exactly the preamble entries (word 0 of a verse with
`number == 0`) — word positions inside a preamble reached by advancing are
counted. -/
theorem totalWords_furthest (ayahs : List Ayah) (isJuz : Bool) (sa : Int)
    (ops : List Op)
    (hstart : isPreambleAt ayahs
      (handleStartMemorization ayahs isJuz sa).currentAyahIndex = false) :
    (∀ pre suf : List Op, ops = pre ++ suf →
      (run ayahs (handleStartMemorization ayahs isJuz sa)
          pre).totalWordsInSession ≤
        (run ayahs (handleStartMemorization ayahs isJuz sa)
          ops).totalWordsInSession) ∧
    (run ayahs (handleStartMemorization ayahs isJuz sa)
        ops).totalWordsInSession =
      furthestCount ayahs (handleStartMemorization ayahs isJuz sa) ops := by
  constructor
  · intro pre suf hsplit
    subst hsplit
    rw [run_append]
    exact run_total_le ayahs suf _
  · have hfw0 : 0 ≤ (handleStartMemorization ayahs isJuz sa).furthestWordIndex := by
      simp [handleStartMemorization]
    have hfer : (handleStartMemorization ayahs isJuz sa).furthestAyahIndex =
        (handleStartMemorization ayahs isJuz sa).currentAyahIndex := by
      simp [handleStartMemorization]
    have hkeep : keepPos ayahs
        (furPos (handleStartMemorization ayahs isJuz sa)) = true := by
      unfold furPos
      rw [hfer]
      have hfw0' : (handleStartMemorization ayahs isJuz sa).furthestWordIndex
          = 0 := by
        simp [handleStartMemorization]
      rw [hfw0']
      simp [keepPos, hstart]
    have h := run_total_eq ayahs ops (handleStartMemorization ayahs isJuz sa)
      hfw0
    rw [hkeep] at h
    simp only [eq_self_iff_true, if_true] at h
    have htot1 : (handleStartMemorization ayahs isJuz sa).totalWordsInSession
        = 1 := by
      simp [handleStartMemorization]
    rw [htot1] at h
    have hcount : ((furSet ayahs (handleStartMemorization ayahs isJuz sa)
          ops).filter (fun p => keepPos ayahs p = true)).card =
        furthestCount ayahs (handleStartMemorization ayahs isJuz sa) ops := by
      rw [furSet_eq_toFinset, card_filter_toFinset]
      rfl
    rw [hcount] at h
    omega

/-- Concrete ayah list for the C1 counterexample: a one-word verse followed
by a preamble with two words. -/
def ayahsC1 : List Ayah := [⟨1, ['a']⟩, ⟨0, ['b', ' ', 'c']⟩]

/-- Claim C1 as stated is false: advancing twice (into and then inside the
preamble) makes `totalWordsInSession` 2 while only one distinct furthest
position lies outside the preamble. -/
theorem totalWords_furthest_cex :
    (run ayahsC1 (handleStartMemorization ayahsC1 true 1)
        [Op.next, Op.next]).totalWordsInSession ≠
      claimFurthestCount ayahsC1 (handleStartMemorization ayahsC1 true 1)
        [Op.next, Op.next] := by decide

/-- Concrete ayah list for the C1 witness. -/
def ayahsC1w : List Ayah := [⟨1, ['a', ' ', 'b']⟩]

/-- Concrete instance of C1 (amended): one advance in a two-word verse gives
a total of 2 = the number of counted distinct furthest positions. -/
theorem totalWords_furthest_witness :
    isPreambleAt ayahsC1w
      (handleStartMemorization ayahsC1w true 1).currentAyahIndex = false ∧
    (run ayahsC1w (handleStartMemorization ayahsC1w true 1)
        [Op.next]).totalWordsInSession =
      furthestCount ayahsC1w (handleStartMemorization ayahsC1w true 1)
        [Op.next] :=
  ⟨by decide, (totalWords_furthest ayahsC1w true 1 [Op.next] (by decide)).2⟩

end AlQuran
